import Mathlib

/-!
# Verification of the evos-rs kernel core against its specification

This development shallowly embeds the parts of the `evkrnl` kernel that the
specification's claims are about:

* `src/kernel/src/time.rs` — PIT-driven timekeeping (`Time::tick_step`),
* `src/kernel/src/interrupts.rs` — the 8259 PIC dispatcher and EOI guard,
* `src/kernel/src/mem.rs` — the heap-window assertion in `mem::init`,
* `src/kernel/src/mem/phys.rs` — the physical page-frame allocator,
* `src/kernel/src/mem/virt.rs` — the slab side of the global allocator,
* `src/kernel/src/initramfs.rs` — the read-only initial filesystem,
* `src/kernel/src/modules.rs` — the late module registry.

Machine integers are embedded as `Nat` with explicit `% 2 ^ w` at the few
places where wrapping matters; fallible code returns `Option` or an explicit
result inductive carrying the panic message.
-/

set_option maxRecDepth 8000

namespace EvKrnl

/-! ## Timekeeping (`src/kernel/src/time.rs`)

The kernel keeps a triple of atomics `(BOOT_NS, PS_TICK_STEP, BOOT_PS_PART)`.
Everything below models single-threaded sequential calls, which is how the
claims quantify over them (interrupt handlers on a uniprocessor run one at a
time).  `BOOT_PS_PART` is an `AtomicU16`, so its addition wraps at `2 ^ 16`.
-/

structure TimeState where
  bootNs : Nat
  psTickStep : Nat
  bootPsPart : Nat
  deriving Repr, DecidableEq

/-- Boot state: both counters zero (`AtomicU64::new(0)` / `AtomicU16::new(0)`). -/
def TimeState.boot (step : Nat) : TimeState :=
  { bootNs := 0, psTickStep := step, bootPsPart := 0 }

/-- `Time::tick_step` from `time.rs` lines 47–57: add `step % 1000` into the
picosecond part (16-bit wrapping add), carry one extra nanosecond when the part
reaches 1000, then add `step / 1000` nanoseconds. -/
def tick_step (s : TimeState) : TimeState :=
  let step := s.psTickStep
  let part := (s.bootPsPart + step % 1000) % 2 ^ 16
  if part ≥ 1000 then
    { s with bootPsPart := part - 1000, bootNs := s.bootNs + (step + 1000) / 1000 }
  else
    { s with bootPsPart := part, bootNs := s.bootNs + step / 1000 }

/-- `Pic::init` programs the PIT for reload 1193 and sets the step to
999 847 619 ps per tick (`interrupts.rs` line 66). -/
def PIT_STEP_PS : Nat := 999847619

/-- N sequential timer ticks from a given state. -/
def tickN : Nat → TimeState → TimeState
  | 0, s => s
  | n + 1, s => tick_step (tickN n s)

theorem tick_step_psTickStep (s : TimeState) : (tick_step s).psTickStep = s.psTickStep := by
  unfold tick_step
  dsimp only []
  split <;> rfl

theorem tickN_psTickStep (n : Nat) (s : TimeState) :
    (tickN n s).psTickStep = s.psTickStep := by
  induction n with
  | zero => rfl
  | succ n ih => rw [tickN, tick_step_psTickStep, ih]

theorem tickN_boot_part (n : Nat) :
    (tickN n (TimeState.boot PIT_STEP_PS)).bootPsPart = n * 619 % 1000 ∧
    (tickN n (TimeState.boot PIT_STEP_PS)).bootNs = n * 999847 + n * 619 / 1000 := by
  induction n with
  | zero => simp [tickN, TimeState.boot]
  | succ n ih =>
    obtain ⟨hpart, hns⟩ := ih
    have hstep : (tickN n (TimeState.boot PIT_STEP_PS)).psTickStep = PIT_STEP_PS :=
      tickN_psTickStep n _
    have hlt : n * 619 % 1000 < 1000 := Nat.mod_lt _ (by norm_num)
    have hstepmod : PIT_STEP_PS % 1000 = 619 := by norm_num [PIT_STEP_PS]
    have hsmall : n * 619 % 1000 + 619 < 2 ^ 16 := by omega
    have hkey : (n + 1) * 619 = 1000 * (n * 619 / 1000) + (n * 619 % 1000 + 619) := by
      have := Nat.div_add_mod (n * 619) 1000
      ring_nf
      omega
    by_cases hc : n * 619 % 1000 + 619 ≥ 1000
    · have hdiv : (n + 1) * 619 / 1000 = n * 619 / 1000 + 1 := by
        rw [hkey, Nat.mul_add_div (by norm_num)]
        have : (n * 619 % 1000 + 619) / 1000 = 1 := by omega
        omega
      have hmod : (n + 1) * 619 % 1000 = n * 619 % 1000 + 619 - 1000 := by
        rw [hkey, Nat.mul_add_mod]
        omega
      constructor
      · simp only [tickN, tick_step, hstep, hpart, hns, hstepmod]
        rw [Nat.mod_eq_of_lt hsmall]
        simp only [ge_iff_le, hc, if_pos]
        omega
      · simp only [tickN, tick_step, hstep, hpart, hns, hstepmod]
        rw [Nat.mod_eq_of_lt hsmall]
        simp only [ge_iff_le, hc, if_pos]
        have : (PIT_STEP_PS + 1000) / 1000 = 999848 := by norm_num [PIT_STEP_PS]
        rw [this, hdiv]
        ring
    · push_neg at hc
      have hdiv : (n + 1) * 619 / 1000 = n * 619 / 1000 := by
        rw [hkey, Nat.mul_add_div (by norm_num)]
        have : (n * 619 % 1000 + 619) / 1000 = 0 := by omega
        omega
      have hmod : (n + 1) * 619 % 1000 = n * 619 % 1000 + 619 := by
        rw [hkey, Nat.mul_add_mod]
        omega
      constructor
      · simp only [tickN, tick_step, hstep, hpart, hns, hstepmod]
        rw [Nat.mod_eq_of_lt hsmall]
        simp only [ge_iff_le, if_neg (by omega : ¬ (1000 ≤ n * 619 % 1000 + 619))]
        omega
      · simp only [tickN, tick_step, hstep, hpart, hns, hstepmod]
        rw [Nat.mod_eq_of_lt hsmall]
        simp only [ge_iff_le, if_neg (by omega : ¬ (1000 ≤ n * 619 % 1000 + 619))]
        have : PIT_STEP_PS / 1000 = 999847 := by norm_num [PIT_STEP_PS]
        rw [this, hdiv]
        ring

/-- **C6.** Starting from boot with the tick step set to STEP = 999 847 619 ps,
after N sequential calls to `Time::tick_step` the value of `boot_time_ns()`
equals `N × floor(STEP/1000) + floor(N × (STEP mod 1000) / 1000)` nanoseconds,
i.e. `N × 999847 + floor(N × 619 / 1000)`. -/
theorem boot_time_ns_after_ticks (n : Nat) :
    (tickN n (TimeState.boot PIT_STEP_PS)).bootNs =
      n * (PIT_STEP_PS / 1000) + n * (PIT_STEP_PS % 1000) / 1000 := by
  have h := (tickN_boot_part n).2
  have h1 : PIT_STEP_PS / 1000 = 999847 := by norm_num [PIT_STEP_PS]
  have h2 : PIT_STEP_PS % 1000 = 619 := by norm_num [PIT_STEP_PS]
  rw [h1, h2, h]

/-! ## 8259 PIC dispatcher and EOI guard (`src/kernel/src/interrupts.rs`) -/

/-- The sixteen legacy PIC interrupt lines, with their `#[repr(u8)]`
discriminants from `interrupts.rs` lines 139–156. -/
inductive PicInterrupt
  | Timer | Keyboard | Cascade | Com2 | Com1 | Lpt2 | Floppy | Lpt1
  | Cmos | Free1 | Free2 | Free3 | Mouse | Processor | PrimaryAta | SecondaryAta
  deriving Repr, DecidableEq

/-- The `repr(u8)` discriminant of a `PicInterrupt` (its IRQ number). -/
def PicInterrupt.toNat : PicInterrupt → Nat
  | .Timer => 0x00 | .Keyboard => 0x01 | .Cascade => 0x02 | .Com2 => 0x03
  | .Com1 => 0x04 | .Lpt2 => 0x05 | .Floppy => 0x06 | .Lpt1 => 0x07
  | .Cmos => 0x08 | .Free1 => 0x09 | .Free2 => 0x0A | .Free3 => 0x0B
  | .Mouse => 0x0C | .Processor => 0x0D | .PrimaryAta => 0x0E | .SecondaryAta => 0x0F

/-- `PIC_SECOND_RANGE.contains(&irq)`: the derived `Ord` on the `repr(u8)` enum
compares discriminants, and the range is `Cmos..=SecondaryAta`, i.e. 8..=15. -/
def inPicSecondRange (irq : PicInterrupt) : Bool :=
  PicInterrupt.Cmos.toNat ≤ irq.toNat && irq.toNat ≤ PicInterrupt.SecondaryAta.toNat

/-- An I/O-port write `(port, value)` performed by the PIC code. -/
structure PortWrite where
  port : Nat
  value : Nat
  deriving Repr, DecidableEq

/-- Master PIC command port (`first_command`, `Port::new(0x20)`). -/
def MASTER_CMD : Nat := 0x20

/-- Slave PIC command port (`second_command`, `Port::new(0xA0)`). -/
def SLAVE_CMD : Nat := 0xA0

/-- `Pic::eoi` (`interrupts.rs` lines 103–111): the sequence of port writes it
performs.  If the IRQ lies in `PIC_SECOND_RANGE` it writes 0x20 to the slave
command port, OTHERWISE it writes 0x20 to the master command port. -/
def picEoiWrites (irq : PicInterrupt) : List PortWrite :=
  if inPicSecondRange irq then
    [{ port := SLAVE_CMD, value := 0x20 }]
  else
    [{ port := MASTER_CMD, value := 0x20 }]

/-- `PicEnd::drop` force-unlocks the PIC mutex, re-locks it, and calls
`Pic::eoi` on the stored IRQ; the port writes it performs are exactly those of
`Pic::eoi`. -/
def picEndDropWrites (irq : PicInterrupt) : List PortWrite :=
  picEoiWrites irq

/-- What the claim says the EOI guard does: always EOI the master, and
additionally the slave when the IRQ number is ≥ 8. -/
def specEoiWrites (irq : PicInterrupt) : List PortWrite :=
  if 8 ≤ irq.toNat then
    [{ port := MASTER_CMD, value := 0x20 }, { port := SLAVE_CMD, value := 0x20 }]
  else
    [{ port := MASTER_CMD, value := 0x20 }]

/-- **C2 (code_bug evidence).** For IRQ 8 (CMOS), the guard's destructor writes
the end-of-interrupt command only to the slave PIC: the master PIC command port
receives no write at all, contradicting the claim that for IRQ ≥ 8 both PICs
receive EOI.  (For IRQ < 8 only the master is written, as claimed.) -/
theorem picEnd_drop_irq8_misses_master :
    picEndDropWrites PicInterrupt.Cmos = [{ port := SLAVE_CMD, value := 0x20 }] ∧
    (∀ w ∈ picEndDropWrites PicInterrupt.Cmos, w.port ≠ MASTER_CMD) ∧
    picEndDropWrites PicInterrupt.Cmos ≠ specEoiWrites PicInterrupt.Cmos := by
  refine ⟨rfl, ?_, by decide⟩
  decide

/-- Outcome of `Pic::interrupt` for a given IRQ (`interrupts.rs` lines 85–100):
either it runs the timer tick, or it hits a `todo!` panic, or the
`unreachable!` arm. The PS/2 module's `ps2_keyboard_interrupt` never appears:
no arm of the `match` calls it. -/
inductive PicDispatch
  | timerTick
  | todoPanic
  | unreachablePanic
  deriving Repr, DecidableEq

/-- `Pic::interrupt`: `Timer` runs `Time::tick_step`; `Keyboard`, `Com2`,
`Com1`, `Cmos`, `Mouse`, `PrimaryAta`, `SecondaryAta` are `todo!(..)` panics;
every other line falls to `unreachable!(..)`. -/
def picInterrupt : PicInterrupt → PicDispatch
  | .Timer => .timerTick
  | .Keyboard => .todoPanic
  | .Com2 => .todoPanic
  | .Com1 => .todoPanic
  | .Cmos => .todoPanic
  | .Mouse => .todoPanic
  | .PrimaryAta => .todoPanic
  | .SecondaryAta => .todoPanic
  | _ => .unreachablePanic

/-- **C4 (code_bug evidence).** Delivering IRQ 1 (keyboard) to the PIC
dispatcher hits the `todo!` arm and panics; it does not complete as a no-op
and never reaches the PS/2 module's handler. -/
theorem picInterrupt_keyboard_panics :
    picInterrupt PicInterrupt.Keyboard = PicDispatch.todoPanic := rfl

/-! ## The heap-window assertion in `mem::init` (`src/kernel/src/mem.rs`)

`mem::init` (lines 144–165) computes the heap page range, takes the L4 index
of its first and last page, and asserts
`table.iter().skip(start4).take(end4 - start4).all(|e| e.flags().intersects(PRESENT))`.
We embed the L4 table as the list of its entries' PRESENT bits.
-/

/-- `HEAP_VIRT_SIZE` (1 GiB, `mem.rs` line 16). -/
def HEAP_VIRT_SIZE : Nat := 1024 * 1024 * 1024 * 1

/-- `HEAP_VIRT_BASE = 0usize.wrapping_sub(HEAP_VIRT_SIZE)` (`mem.rs` line 17). -/
def HEAP_VIRT_BASE : Nat := (0 + 2 ^ 64 - HEAP_VIRT_SIZE) % 2 ^ 64

/-- The level-4 page-table index of a virtual address: bits 39..47. -/
def p4Index (addr : Nat) : Nat := addr / 2 ^ 39 % 512

/-- L4 index of the first heap page (`heap_range.start.p4_index()`). -/
def heapStart4 : Nat := p4Index HEAP_VIRT_BASE

/-- L4 index of the last heap page, `Page::containing_address(0 - 4096)`
(`heap_range.end.p4_index()`). -/
def heapEnd4 : Nat := p4Index ((0 + 2 ^ 64 - 4096) % 2 ^ 64)

/-- The asserted condition in `mem::init` line 158 over the PRESENT bits of the
512 L4 entries: `iter().skip(start4).take(end4 - start4).all(intersects PRESENT)`.
`usize` subtraction `end4 - start4` is exact here since `start4 ≤ end4`. -/
def heapReservedAssertCond (present : List Bool) : Bool :=
  ((present.drop heapStart4).take (heapEnd4 - heapStart4)).all (fun e => e)

/-- **C5 (code_bug evidence).** The assertion guarding the kernel-heap window
never fires: both heap-range L4 indices are 511, so the checked slice
`skip(511).take(0)` is empty and the asserted condition is `true` for every
L4 table — in particular for a table whose entry 511 (the one actually covering
the heap window) is present/in use.  Moreover the condition that IS written
asserts that entries are present, the opposite of the claimed "unused/not
present".  `mem::init` therefore cannot panic here, whatever the table. -/
theorem heapReservedAssert_vacuous (present : List Bool) :
    heapReservedAssertCond present = true ∧ heapStart4 = 511 ∧ heapEnd4 = 511 := by
  refine ⟨?_, by decide, by decide⟩
  have h : heapEnd4 - heapStart4 = 0 := by decide
  simp [heapReservedAssertCond, h]

/-! ## Late module registry (`src/kernel/src/modules.rs`)

A `Module` is a pair of C-ABI function pointers; in the model a module is
represented by the outcome of its `init()` call (the only thing `register`
inspects) plus an opaque identifier standing for the pair of pointers. -/

structure MModule where
  ident : Nat
  initResult : Bool
  deriving Repr, DecidableEq

/-- The late registry `EXTRA_KERNEL_MODULES`: a 255-slot array with a fill
count, modelled as the list of its initialized prefix. -/
structure Registry where
  mods : List MModule
  deriving Repr, DecidableEq

/-- Capacity of `EXTRA_KERNEL_MODULES` (`[MaybeUninit<Module>; 255]`). -/
def REGISTRY_CAP : Nat := 255

/-- `register` (`modules.rs` lines 60–80): if the registry is full, return
`false`; otherwise run `init()`; on success write the module at the fill index,
bump the count and return `true`; on failure return `false` WITHOUT writing. -/
def register (reg : Registry) (m : MModule) : Bool × Registry :=
  if reg.mods.length ≥ REGISTRY_CAP then
    (false, reg)
  else
    let success := m.initResult
    if success then
      (true, { mods := reg.mods ++ [m] })
    else
      (false, reg)

/-- **C9 (counterexample).** Registering a module whose `init()` returns
`false` into an empty (hence non-full) registry reports `false` and leaves the
registry empty: the module is NOT appended, contradicting the claim that the
append happens regardless of `init()`'s result. -/
theorem register_failed_init_not_appended :
    ([] : List MModule).length < REGISTRY_CAP ∧
    register { mods := [] } { ident := 0, initResult := false } =
      (false, { mods := [] }) ∧
    (register { mods := [] } { ident := 0, initResult := false }).2.mods ≠
      [{ ident := 0, initResult := false }] := by
  refine ⟨by decide, rfl, by decide⟩

/-- **C9 (amended).** While the registry is not full, `register` invokes
`init()` and returns its boolean result; the module is appended exactly when
`init()` returned `true`, and the registry is left unchanged when it returned
`false`. -/
theorem register_appends_iff_init_ok (reg : Registry) (m : MModule)
    (h : reg.mods.length < REGISTRY_CAP) :
    register reg m =
      (m.initResult, if m.initResult then { mods := reg.mods ++ [m] } else reg) := by
  unfold register
  rw [if_neg (by omega)]
  cases hm : m.initResult <;> simp [hm]

/-- Witness for `register_appends_iff_init_ok` at a concrete registry and
module. -/
theorem register_appends_iff_init_ok_witness :
    register { mods := [] } { ident := 7, initResult := true } =
      (true, { mods := [{ ident := 7, initResult := true }] }) := by
  have h := register_appends_iff_init_ok { mods := [] }
    { ident := 7, initResult := true } (by decide)
  simpa using h

/-! ## Physical page-frame allocator (`src/kernel/src/mem/phys.rs`) -/

/-- `bootloader_api::info::MemoryRegionKind`.  `PageFrameAllocator::new`
matches only on `Usable` vs everything else, so the non-usable kinds are
collapsed into `other`. -/
inductive MemoryRegionKind
  | usable
  | other
  deriving Repr, DecidableEq

/-- `bootloader_api::info::MemoryRegion`: a half-open physical range with a
kind.  The Rust field `end` is a Lean keyword and is named `stop` here. -/
structure MemoryRegion where
  start : Nat
  stop : Nat
  kind : MemoryRegionKind
  deriving Repr, DecidableEq

/-- `Size4KiB::SIZE`. -/
def PAGE_SIZE : Nat := 4096

/-- `PhysAddr::align_up(Size4KiB::SIZE)`. -/
def alignUp (a : Nat) : Nat := (a + PAGE_SIZE - 1) / PAGE_SIZE * PAGE_SIZE

/-- `PhysAddr::align_down(Size4KiB::SIZE)`. -/
def alignDown (a : Nat) : Nat := a / PAGE_SIZE * PAGE_SIZE

/-- Wrapping `u64` subtraction `a - b` for `a, b < 2 ^ 64` (release-mode
semantics of the subtraction in the region-size check). -/
def wsub64 (a b : Nat) : Nat := (a + 2 ^ 64 - b) % 2 ^ 64

/-- The retention test applied to the region at `start` in
`PageFrameAllocator::new` (`phys.rs` lines 130–143): the region is kept when
it is `Usable` and `(end.align_down(4K) - start.align_up(4K)) / 4096 >= 8`. -/
def keepRegion (r : MemoryRegion) : Bool :=
  r.kind == MemoryRegionKind.usable &&
    8 ≤ wsub64 (alignDown r.stop) (alignUp r.start) / PAGE_SIZE

/-- `<[T]>::swap(i, j)`; `none` models the out-of-bounds panic. -/
def listSwap (l : List MemoryRegion) (i j : Nat) : Option (List MemoryRegion) :=
  match l[i]?, l[j]? with
  | some a, some b => some ((l.set i b).set j a)
  | _, _ => none

/-- The partition loop of `PageFrameAllocator::new` (`phys.rs` lines 129–144):
`while start != end { if keep(raw[start]) { start += 1 } else { raw.swap(start, end); end -= 1 } }`.
Returns the permuted table and the final `start`.  The fuel only rules out a
diverging model; every real execution (with `start ≤ end < len`) terminates
within `len` iterations, and `none` is unreachable there. -/
def partitionAux : Nat → List MemoryRegion → Nat → Nat → Option (List MemoryRegion × Nat)
  | 0, _, _, _ => none
  | fuel + 1, raw, start, stop =>
    if start = stop then some (raw, start)
    else
      match raw[start]? with
      | none => none
      | some r =>
        if keepRegion r then partitionAux fuel raw (start + 1) stop
        else
          match listSwap raw start stop with
          | none => none
          | some raw' => partitionAux fuel raw' start (stop - 1)

/-- The list of regions `PageFrameAllocator::new` retains and builds one
single-region allocator over (`&mut raw[..start]`, lines 147–163), after
running the partition loop with `start = 0`, `end = len - 1`.  An empty table
makes `raw.len() - 1` wrap and the loop index the table out of bounds, which
is modelled as `none`. -/
def pfaRetainedRegions (regions : List MemoryRegion) : Option (List MemoryRegion) :=
  if regions.length = 0 then none
  else
    (partitionAux (regions.length + 1) regions 0 (regions.length - 1)).map
      fun p => p.1.take p.2

/-- The 128 MiB boot scenario from the spec: a single usable region
[1 MiB, 128 MiB). -/
def bootRegion : MemoryRegion :=
  { start := 0x100000, stop := 0x8000000, kind := MemoryRegionKind.usable }

/-- **C1 (code_bug evidence).** The partition loop runs `while start != end`
with `end = len - 1`, so the element standing at the final index is never
examined and always ends up outside `raw[..start]`.  On a table holding a
single usable 127 MiB region — which passes the retention test — the allocator
retains nothing: the region is discarded even though it is usable and far
larger than 8 aligned frames, contradicting the claim that only non-usable or
too-small regions are discarded. -/
theorem pfaNew_drops_last_usable_region :
    keepRegion bootRegion = true ∧
    pfaRetainedRegions [bootRegion] = some [] ∧
    (∀ l, pfaRetainedRegions [bootRegion] = some l → bootRegion ∉ l) := by
  refine ⟨by decide, by decide, ?_⟩
  intro l hl
  have : l = [] := by
    have h : pfaRetainedRegions [bootRegion] = some [] := by decide
    rw [h] at hl
    exact (Option.some_inj.mp hl).symm
  simp [this]

/-! ### Single-region allocators and the global allocator

`SingleRegionPageFrameAllocator` holds a `PhysFrameRange`, a bitmap with one
bit per frame (1 = allocated) and a hint `next_free`.  The range is embedded
as `base` (the aligned region start) and `nFrames` (the frame count, with
`frames.end = base + 4096 * nFrames`); the bitmap as a `List Bool`. -/

structure SingleRegionPageFrameAllocator where
  base : Nat
  nFrames : Nat
  bitmap : List Bool
  next_free : Option Nat
  deriving Repr, DecidableEq

/-- `BitSlice::first_zero`: index of the first `false` bit. -/
def firstZero : List Bool → Option Nat
  | [] => none
  | false :: _ => some 0
  | true :: l => (firstZero l).map (· + 1)

/-- Bit lookup with the `BitSlice` indexing convention; out-of-range reads
yield `false` (they do not occur under the allocator invariant). -/
def bitGet (l : List Bool) (i : Nat) : Bool := (l[i]?).getD false

/-- `size_of::<SingleRegionPageFrameAllocator>()`: two 8-byte frame pointers,
a 16-byte fat bitmap reference and a 16-byte `Option<usize>`. -/
def SRA_HEADER_SIZE : Nat := 48

/-- `SingleRegionPageFrameAllocator::new` (`phys.rs` lines 19–45): align the
region, size the bitmap at one bit per frame rounded down to whole bytes,
mark the pages holding the header and bitmap as allocated, and point the hint
at the first zero bit. -/
def sraNew (region : MemoryRegion) : SingleRegionPageFrameAllocator :=
  let start := alignUp region.start
  let stop := alignDown region.stop
  let size_in_pages := (stop - start) / PAGE_SIZE
  let slice_size := size_in_pages / 8
  let offset := (SRA_HEADER_SIZE + slice_size + PAGE_SIZE - 1) / PAGE_SIZE
  let bits := slice_size * 8
  let bitmap := List.replicate (min offset bits) true ++ List.replicate (bits - offset) false
  { base := start
    nFrames := size_in_pages
    bitmap := bitmap
    next_free := firstZero bitmap }

/-- `SingleRegionPageFrameAllocator::allocate` (`phys.rs` lines 47–53): take
the hinted bit, set it, recompute the hint as the first zero at or after it,
and return the frame `base + 4096 * bit`. -/
def sraAllocate (a : SingleRegionPageFrameAllocator) :
    Option (Nat × SingleRegionPageFrameAllocator) :=
  a.next_free.map fun this =>
    let bitmap := a.bitmap.set this true
    ( a.base + PAGE_SIZE * this,
      { a with bitmap := bitmap
               next_free := (firstZero (bitmap.drop this)).map (· + this) } )

/-- Decimal rendering of a `usize` (the `{}` format). -/
def decimal (n : Nat) : List Char := Nat.toDigits 10 n

/-- The `{:016x}` format: 16 lowercase hex digits, zero padded. -/
def hex16 (n : Nat) : List Char :=
  let d := Nat.toDigits 16 n
  List.replicate (16 - d.length) '0' ++ d

/-- The panic message of the double-free branch of
`SingleRegionPageFrameAllocator::deallocate` (`phys.rs` line 64), which
interpolates the frame INDEX and the REGION start address. -/
def sraDoubleFreeMsg (index start : Nat) : List Char :=
  "Invalid frame index ".toList ++ decimal index ++
    " for region @ Phys 0x".toList ++ hex16 start ++
    " deallocated in SingleRegionPageFrameAllocator!!!".toList

/-- Message of the `Option::unwrap` panic hit when `bitmap.get(index)` is
`None` (an in-range frame past the byte-truncated bitmap). -/
def unwrapNoneMsg : List Char :=
  "called `Option::unwrap()` on a `None` value".toList

/-- Panic message of `PageFrameAllocator::deallocate_frame` when no
single-region allocator owns the frame (`phys.rs` line 193); this one DOES
interpolate the frame's physical address. -/
def pfaInvalidFrameMsg (frame : Nat) : List Char :=
  "Invalid frame @ Phys 0x".toList ++ hex16 frame ++
    " deallocated in PageFrameAllocator!!!".toList

inductive SraDeallocResult
  | notOwner
  | panicked (msg : List Char)
  | freed (a : SingleRegionPageFrameAllocator)
  deriving Repr, DecidableEq

/-- `SingleRegionPageFrameAllocator::deallocate` (`phys.rs` lines 56–76):
range-route, then panic on a zero bit (double free), else clear the bit and
rewind the hint when the freed index is lower. -/
def sraDeallocate (a : SingleRegionPageFrameAllocator) (frame : Nat) :
    SraDeallocResult :=
  let start := a.base
  let stop := a.base + PAGE_SIZE * a.nFrames
  if start ≤ frame ∧ frame < stop then
    let index := (frame - start) / PAGE_SIZE
    match a.bitmap[index]? with
    | none => .panicked unwrapNoneMsg
    | some b =>
      if !b then .panicked (sraDoubleFreeMsg index start)
      else
        .freed { a with
          bitmap := a.bitmap.set index false
          next_free :=
            match a.next_free with
            | some old => if old > index then some index else some old
            | none => some index }
  else .notOwner

/-- `PageFrameAllocator::allocate_frame`: `find_map` over the allocators in
region order; a full allocator returns `None` without being modified. -/
def allocate_frame :
    List SingleRegionPageFrameAllocator →
      Option (Nat × List SingleRegionPageFrameAllocator)
  | [] => none
  | a :: rest =>
    match sraAllocate a with
    | some (f, a') => some (f, a' :: rest)
    | none => (allocate_frame rest).map fun p => (p.1, a :: p.2)

inductive DeallocateFrameResult
  | panicked (msg : List Char)
  | ok (l : List SingleRegionPageFrameAllocator)
  deriving Repr, DecidableEq

/-- `PageFrameAllocator::deallocate_frame` (`phys.rs` lines 190–195):
route to the first allocator whose range contains the frame; panic when none
does. -/
def deallocate_frame :
    List SingleRegionPageFrameAllocator → Nat → DeallocateFrameResult
  | [], frame => .panicked (pfaInvalidFrameMsg frame)
  | a :: rest, frame =>
    match sraDeallocate a frame with
    | .freed a' => .ok (a' :: rest)
    | .panicked msg => .panicked msg
    | .notOwner =>
      match deallocate_frame rest frame with
      | .ok rest' => .ok (a :: rest')
      | .panicked msg => .panicked msg

/-- A concrete owning allocator for the C3 counterexample: region
[0x1000, 0x9000), 8 frames, frame 0x2000 (index 1) currently free. -/
def sraC3 : SingleRegionPageFrameAllocator :=
  { base := 0x1000
    nFrames := 8
    bitmap := [true, false, false, false, false, false, false, false]
    next_free := some 1 }

/-- **C3 (counterexample).** Freeing the already-free frame 0x2000 in its
owning allocator does panic, but the panic message interpolates the frame
INDEX (1) and the REGION base (0x0000000000001000), not the frame's physical
address: neither the kernel's own `0x{:016x}` rendering of 0x2000 nor its
decimal rendering occurs in the message, so the claim's "the panic message
contains the frame's physical address" fails. -/
theorem sra_double_free_msg_lacks_address :
    deallocate_frame [sraC3] 0x2000 = .panicked (sraDoubleFreeMsg 1 0x1000) ∧
    ¬ List.IsInfix (hex16 0x2000) (sraDoubleFreeMsg 1 0x1000) ∧
    ¬ List.IsInfix (decimal 0x2000) (sraDoubleFreeMsg 1 0x1000) := by
  refine ⟨by decide, by decide, by decide⟩

/-- **C3 (amended).** Freeing a frame whose bit is currently clear in its
owning single-region allocator panics, and the panic message contains the
frame's index within the region (in decimal) and the region's base physical
address (in the kernel's `0x{:016x}` rendering) — the frame's address is
recoverable as `base + 4096 × index` but is not itself in the message. -/
theorem sra_double_free_panics (a : SingleRegionPageFrameAllocator) (frame : Nat)
    (hlo : a.base ≤ frame) (hhi : frame < a.base + PAGE_SIZE * a.nFrames)
    (hbit : a.bitmap[(frame - a.base) / PAGE_SIZE]? = some false) :
    sraDeallocate a frame =
      .panicked (sraDoubleFreeMsg ((frame - a.base) / PAGE_SIZE) a.base) ∧
    List.IsInfix (decimal ((frame - a.base) / PAGE_SIZE))
      (sraDoubleFreeMsg ((frame - a.base) / PAGE_SIZE) a.base) ∧
    List.IsInfix (hex16 a.base)
      (sraDoubleFreeMsg ((frame - a.base) / PAGE_SIZE) a.base) := by
  refine ⟨?_, ?_, ?_⟩
  · unfold sraDeallocate
    rw [if_pos ⟨hlo, hhi⟩]
    dsimp only
    rw [hbit]
    rfl
  · exact ⟨"Invalid frame index ".toList,
      " for region @ Phys 0x".toList ++ hex16 a.base ++
        " deallocated in SingleRegionPageFrameAllocator!!!".toList,
      by simp [sraDoubleFreeMsg]⟩
  · exact ⟨"Invalid frame index ".toList ++
        decimal ((frame - a.base) / PAGE_SIZE) ++ " for region @ Phys 0x".toList,
      " deallocated in SingleRegionPageFrameAllocator!!!".toList,
      by simp [sraDoubleFreeMsg]⟩

/-- Witness for `sra_double_free_panics`: the concrete allocator `sraC3` and
the free frame 0x3000 (index 2). -/
theorem sra_double_free_panics_witness :
    sraDeallocate sraC3 0x3000 =
      .panicked (sraDoubleFreeMsg ((0x3000 - sraC3.base) / PAGE_SIZE) sraC3.base) ∧
    List.IsInfix (decimal ((0x3000 - sraC3.base) / PAGE_SIZE))
      (sraDoubleFreeMsg ((0x3000 - sraC3.base) / PAGE_SIZE) sraC3.base) ∧
    List.IsInfix (hex16 sraC3.base)
      (sraDoubleFreeMsg ((0x3000 - sraC3.base) / PAGE_SIZE) sraC3.base) :=
  sra_double_free_panics sraC3 0x3000 (by decide) (by decide) (by decide)

/-! ### Facts about `firstZero` -/

theorem firstZero_some_lt : ∀ {l : List Bool} {i}, firstZero l = some i → i < l.length := by
  intro l
  induction l with
  | nil => intro i h; simp [firstZero] at h
  | cons b l ih =>
    intro i h
    cases b with
    | false =>
      simp only [firstZero, Option.some_inj] at h
      subst h
      simp
    | true =>
      simp only [firstZero, Option.map_eq_some'] at h
      obtain ⟨a, ha, rfl⟩ := h
      simpa using Nat.succ_lt_succ (ih ha)

theorem firstZero_some_get : ∀ {l : List Bool} {i}, firstZero l = some i → l[i]? = some false := by
  intro l
  induction l with
  | nil => intro i h; simp [firstZero] at h
  | cons b l ih =>
    intro i h
    cases b with
    | false =>
      simp only [firstZero, Option.some_inj] at h
      subst h
      simp
    | true =>
      simp only [firstZero, Option.map_eq_some'] at h
      obtain ⟨a, ha, rfl⟩ := h
      simpa using ih ha

theorem firstZero_some_prefix : ∀ {l : List Bool} {i}, firstZero l = some i →
    ∀ j, j < i → l[j]? = some true := by
  intro l
  induction l with
  | nil => intro i h; simp [firstZero] at h
  | cons b l ih =>
    intro i h j hj
    cases b with
    | false =>
      simp only [firstZero, Option.some_inj] at h
      omega
    | true =>
      simp only [firstZero, Option.map_eq_some'] at h
      obtain ⟨a, ha, rfl⟩ := h
      cases j with
      | zero => simp
      | succ k => simpa using ih ha k (by omega)

theorem firstZero_none : ∀ {l : List Bool}, firstZero l = none → ∀ b ∈ l, b = true := by
  intro l
  induction l with
  | nil => intro _ b hb; simp at hb
  | cons b l ih =>
    intro h c hc
    cases b with
    | false => simp [firstZero] at h
    | true =>
      simp only [firstZero, Option.map_eq_none'] at h
      rcases List.mem_cons.mp hc with rfl | hmem
      · rfl
      · exact ih h c hmem

theorem firstZero_of_prefix_true : ∀ (i : Nat) (l : List Bool),
    (∀ j, j < i → l[j]? = some true) →
    firstZero l = (firstZero (l.drop i)).map (· + i) := by
  intro i
  induction i with
  | zero =>
    intro l _
    cases h : firstZero l <;> simp [h]
  | succ i ih =>
    intro l h
    cases l with
    | nil => simp [firstZero]
    | cons b l =>
      have hb : b = true := by
        have := h 0 (Nat.succ_pos _)
        simpa using this
      subst hb
      simp only [firstZero, List.drop_succ_cons]
      rw [ih l (fun j hj => by simpa using h (j + 1) (by omega))]
      cases firstZero (l.drop i) with
      | none => rfl
      | some a => simp [Nat.add_assoc]

theorem firstZero_set_false : ∀ {l : List Bool} {idx}, l[idx]? = some true →
    firstZero (l.set idx false) =
      some ((firstZero l).elim idx (fun old => min old idx)) := by
  intro l
  induction l with
  | nil => intro idx h; simp at h
  | cons b l ih =>
    intro idx h
    cases idx with
    | zero =>
      have hb : b = true := by simpa using h
      subst hb
      simp only [List.set_cons_zero, firstZero]
      cases firstZero l <;> simp
    | succ k =>
      have hk : l[k]? = some true := by simpa using h
      cases b with
      | false =>
        simp [firstZero]
      | true =>
        simp only [List.set_cons_succ, firstZero, ih hk]
        cases hfz : firstZero l with
        | none => simp
        | some old =>
          simp only [Option.map_some', Option.elim_some, Option.some_inj]
          omega

/-- Recomputing the hint from the just-set bit equals recomputing it from the
start: after `set i true`, the first `i + 1` bits are all set. -/
theorem firstZero_after_set {l : List Bool} {i : Nat} (h : firstZero l = some i) :
    (firstZero ((l.set i true).drop i)).map (· + i) = firstZero (l.set i true) := by
  refine (firstZero_of_prefix_true i _ (fun j hj => ?_)).symm
  rw [List.getElem?_set_ne (by omega)]
  exact firstZero_some_prefix h j hj

/-! ### The allocator invariant

`sraInv` is the spec's SRA invariant: the hint equals the first zero bit of
the bitmap; the base is 4 KiB-aligned (`SRA::new` aligns the region start
up); and the bitmap never tracks more frames than the region holds (its bit
count is the frame count rounded down to a whole byte). `pfaInv` adds the
spec's global invariant that the regions are pairwise disjoint. -/

def sraInv (a : SingleRegionPageFrameAllocator) : Prop :=
  a.next_free = firstZero a.bitmap ∧ a.base % PAGE_SIZE = 0 ∧
    a.bitmap.length ≤ a.nFrames

instance (a : SingleRegionPageFrameAllocator) : Decidable (sraInv a) := by
  unfold sraInv; infer_instance

def rangesOf (l : List SingleRegionPageFrameAllocator) : List (Nat × Nat) :=
  l.map fun a => (a.base, a.nFrames)

def rangesDisjoint (p q : Nat × Nat) : Prop :=
  p.1 + PAGE_SIZE * p.2 ≤ q.1 ∨ q.1 + PAGE_SIZE * q.2 ≤ p.1

instance (p q : Nat × Nat) : Decidable (rangesDisjoint p q) := by
  unfold rangesDisjoint; infer_instance

def pfaInv (l : List SingleRegionPageFrameAllocator) : Prop :=
  (∀ a ∈ l, sraInv a) ∧ (rangesOf l).Pairwise rangesDisjoint

/-- A freshly constructed single-region allocator satisfies the invariant:
its hint is computed as the first zero bit, its base is the aligned-up region
start, and its byte-truncated bitmap covers at most `nFrames` bits. -/
theorem sraNew_inv (r : MemoryRegion) : sraInv (sraNew r) := by
  refine ⟨rfl, ?_, ?_⟩
  · show alignUp r.start % PAGE_SIZE = 0
    unfold alignUp
    exact Nat.mul_mod_left _ _
  · have h8 : (alignDown r.stop - alignUp r.start) / PAGE_SIZE / 8 * 8 ≤
        (alignDown r.stop - alignUp r.start) / PAGE_SIZE := Nat.div_mul_le_self _ _
    show (List.replicate _ true ++ List.replicate _ false).length ≤
      (alignDown r.stop - alignUp r.start) / PAGE_SIZE
    rw [List.length_append, List.length_replicate, List.length_replicate]
    omega

theorem sraAllocate_eq_none {a : SingleRegionPageFrameAllocator} :
    sraAllocate a = none ↔ a.next_free = none := by
  cases h : a.next_free <;> simp [sraAllocate, h]

theorem sraAllocate_eq_some {a : SingleRegionPageFrameAllocator} {f : Nat}
    {a' : SingleRegionPageFrameAllocator} (h : sraAllocate a = some (f, a')) :
    ∃ i, a.next_free = some i ∧ f = a.base + PAGE_SIZE * i ∧
      a' = { a with
        bitmap := a.bitmap.set i true
        next_free := (firstZero ((a.bitmap.set i true).drop i)).map (· + i) } := by
  cases hn : a.next_free with
  | none => simp [sraAllocate, hn] at h
  | some i =>
    refine ⟨i, rfl, ?_⟩
    simp only [sraAllocate, hn, Option.map_some', Option.some_inj, Prod.mk.injEq] at h
    exact ⟨h.1.symm, h.2.symm⟩

/-- `allocate` keeps the region (base and frame count) unchanged and
maintains the hint invariant: the recomputed hint is again the first zero
bit of the updated bitmap. -/
theorem sraAllocate_inv {a : SingleRegionPageFrameAllocator} {f : Nat}
    {a' : SingleRegionPageFrameAllocator} (hinv : sraInv a)
    (h : sraAllocate a = some (f, a')) :
    sraInv a' ∧ a'.base = a.base ∧ a'.nFrames = a.nFrames := by
  obtain ⟨i, hn, _, ha'⟩ := sraAllocate_eq_some h
  obtain ⟨hhint, hbase, hlen⟩ := hinv
  have hfz : firstZero a.bitmap = some i := by rw [← hhint, hn]
  subst ha'
  refine ⟨⟨?_, hbase, ?_⟩, rfl, rfl⟩
  · exact firstZero_after_set hfz
  · simpa using hlen

theorem sraDeallocate_notOwner {a : SingleRegionPageFrameAllocator} {g : Nat} :
    sraDeallocate a g = .notOwner ↔
      ¬ (a.base ≤ g ∧ g < a.base + PAGE_SIZE * a.nFrames) := by
  unfold sraDeallocate
  by_cases hin : a.base ≤ g ∧ g < a.base + PAGE_SIZE * a.nFrames
  · rw [if_pos hin]
    dsimp only
    cases a.bitmap[(g - a.base) / PAGE_SIZE]? with
    | none => simp [hin]
    | some b => cases b <;> simp [hin]
  · rw [if_neg hin]
    simp [hin]

theorem sraDeallocate_freed {a : SingleRegionPageFrameAllocator} {g : Nat}
    {a' : SingleRegionPageFrameAllocator} (h : sraDeallocate a g = .freed a') :
    (a.base ≤ g ∧ g < a.base + PAGE_SIZE * a.nFrames) ∧
    a.bitmap[(g - a.base) / PAGE_SIZE]? = some true ∧
    a' = { a with
      bitmap := a.bitmap.set ((g - a.base) / PAGE_SIZE) false
      next_free :=
        match a.next_free with
        | some old =>
          if old > (g - a.base) / PAGE_SIZE then some ((g - a.base) / PAGE_SIZE)
          else some old
        | none => some ((g - a.base) / PAGE_SIZE) } := by
  unfold sraDeallocate at h
  by_cases hin : a.base ≤ g ∧ g < a.base + PAGE_SIZE * a.nFrames
  · rw [if_pos hin] at h
    dsimp only at h
    cases hb : a.bitmap[(g - a.base) / PAGE_SIZE]? with
    | none => rw [hb] at h; simp at h
    | some b =>
      rw [hb] at h
      cases b with
      | false => simp at h
      | true =>
        simp only [Bool.not_true, Bool.false_eq_true, if_false,
          SraDeallocResult.freed.injEq] at h
        exact ⟨hin, rfl, h.symm⟩
  · rw [if_neg hin] at h
    simp at h

/-- `deallocate` keeps the region unchanged and maintains the hint
invariant: the rewound hint is the first zero bit of the cleared bitmap. -/
theorem sraDeallocate_inv {a : SingleRegionPageFrameAllocator} {g : Nat}
    {a' : SingleRegionPageFrameAllocator} (hinv : sraInv a)
    (h : sraDeallocate a g = .freed a') :
    sraInv a' ∧ a'.base = a.base ∧ a'.nFrames = a.nFrames := by
  obtain ⟨_, hbit, ha'⟩ := sraDeallocate_freed h
  obtain ⟨hhint, hbase, hlen⟩ := hinv
  subst ha'
  refine ⟨⟨?_, hbase, by simpa using hlen⟩, rfl, rfl⟩
  rw [firstZero_set_false hbit, ← hhint]
  cases hn : a.next_free with
  | none => rfl
  | some old =>
    simp only [Option.elim_some]
    by_cases hlt : old > (g - a.base) / PAGE_SIZE
    · rw [if_pos hlt]
      congr 1
      omega
    · rw [if_neg hlt]
      congr 1
      omega

/-! ### Allocation order and the no-reuse property -/

/-- Whether frame `f`'s bit is set (allocated), looked up in the first
allocator whose range contains `f` — the same routing `deallocate_frame`
uses. -/
def frameBitSet : List SingleRegionPageFrameAllocator → Nat → Bool
  | [], _ => false
  | a :: rest, f =>
    if a.base ≤ f ∧ f < a.base + PAGE_SIZE * a.nFrames then
      bitGet a.bitmap ((f - a.base) / PAGE_SIZE)
    else frameBitSet rest f

/-- The claim's allocation rule: the frame at the lowest zero bit of the
first single-region allocator, in region order, that has any zero bit. -/
def specAllocateFrame : List SingleRegionPageFrameAllocator → Option Nat
  | [] => none
  | a :: rest =>
    match firstZero a.bitmap with
    | some i => some (a.base + PAGE_SIZE * i)
    | none => specAllocateFrame rest

theorem bitGet_true_lt {l : List Bool} {j : Nat} (h : bitGet l j = true) :
    j < l.length := by
  unfold bitGet at h
  cases hj : l[j]? with
  | none => rw [hj] at h; simp at h
  | some b => exact (List.getElem?_eq_some_iff.mp hj).1

theorem bitGet_set_true {l : List Bool} {i j : Nat} (h : bitGet l j = true) :
    bitGet (l.set i true) j = true := by
  by_cases hij : i = j
  · subst hij
    have hlt : i < l.length := bitGet_true_lt h
    unfold bitGet
    rw [List.getElem?_set_self hlt]
    rfl
  · unfold bitGet at *
    rw [List.getElem?_set_ne hij]
    exact h

theorem bitGet_set_false_ne {l : List Bool} {i j : Nat} (hij : i ≠ j) :
    bitGet (l.set i false) j = bitGet l j := by
  unfold bitGet
  rw [List.getElem?_set_ne hij]

/-- `allocate_frame` does not change any allocator's region. -/
theorem allocate_frame_ranges :
    ∀ {l : List SingleRegionPageFrameAllocator} {f : Nat}
      {l' : List SingleRegionPageFrameAllocator},
      allocate_frame l = some (f, l') → rangesOf l' = rangesOf l := by
  intro l
  induction l with
  | nil => intro f l' h; simp [allocate_frame] at h
  | cons a rest ih =>
    intro f l' h
    unfold allocate_frame at h
    cases ha : sraAllocate a with
    | some p =>
      obtain ⟨g, a'⟩ := p
      rw [ha] at h
      simp only [Option.some_inj, Prod.mk.injEq] at h
      obtain ⟨rfl, rfl⟩ := h
      obtain ⟨i, _, _, hp⟩ := sraAllocate_eq_some ha
      simp [rangesOf, hp]
    | none =>
      rw [ha] at h
      cases hr : allocate_frame rest with
      | none => rw [hr] at h; simp at h
      | some q =>
        obtain ⟨g, rest'⟩ := q
        rw [hr] at h
        simp only [Option.map_some', Option.some_inj, Prod.mk.injEq] at h
        obtain ⟨rfl, rfl⟩ := h
        simp only [rangesOf, List.map_cons, List.cons.injEq]
        exact ⟨by trivial, ih hr⟩

/-- Under the hint invariant, `allocate_frame` returns exactly the frame the
claim describes: the lowest zero bit of the first allocator with a zero bit. -/
theorem allocate_frame_spec :
    ∀ {l : List SingleRegionPageFrameAllocator}, (∀ a ∈ l, sraInv a) →
      (allocate_frame l).map Prod.fst = specAllocateFrame l := by
  intro l
  induction l with
  | nil => intro _; rfl
  | cons a rest ih =>
    intro hinv
    have ha : sraInv a := hinv a (List.mem_cons_self a rest)
    unfold allocate_frame specAllocateFrame
    cases hn : a.next_free with
    | some i =>
      have hfz : firstZero a.bitmap = some i := by rw [← ha.1, hn]
      rw [hfz]
      simp [sraAllocate, hn]
    | none =>
      have hfz : firstZero a.bitmap = none := by rw [← ha.1, hn]
      rw [hfz]
      have hnone : sraAllocate a = none := sraAllocate_eq_none.mpr hn
      rw [hnone]
      rw [← ih (fun b hb => hinv b (List.mem_cons_of_mem a hb))]
      cases hr : allocate_frame rest <;> simp

/-- A successful `allocate_frame` returns a frame inside the range of one of
its allocators. -/
theorem allocate_frame_mem_range :
    ∀ {l : List SingleRegionPageFrameAllocator} {f : Nat}
      {l' : List SingleRegionPageFrameAllocator},
      (∀ a ∈ l, sraInv a) → allocate_frame l = some (f, l') →
      ∃ b ∈ l, b.base ≤ f ∧ f < b.base + PAGE_SIZE * b.nFrames := by
  intro l
  induction l with
  | nil => intro f l' _ h; simp [allocate_frame] at h
  | cons a rest ih =>
    intro f l' hinv h
    unfold allocate_frame at h
    cases ha : sraAllocate a with
    | some p =>
      obtain ⟨g, a'⟩ := p
      rw [ha] at h
      simp only [Option.some_inj, Prod.mk.injEq] at h
      obtain ⟨rfl, rfl⟩ := h
      obtain ⟨i, hn, hf, _⟩ := sraAllocate_eq_some ha
      have hari : sraInv a := hinv a (List.mem_cons_self a rest)
      have hfz : firstZero a.bitmap = some i := by rw [← hari.1, hn]
      have hi : i < a.bitmap.length := firstZero_some_lt hfz
      have hle := hari.2.2
      have hp : PAGE_SIZE = 4096 := rfl
      rw [hp] at hf
      refine ⟨a, List.mem_cons_self a rest, by omega, ?_⟩
      rw [hp]
      omega
    | none =>
      rw [ha] at h
      cases hr : allocate_frame rest with
      | none => rw [hr] at h; simp at h
      | some q =>
        obtain ⟨g, rest'⟩ := q
        rw [hr] at h
        simp only [Option.map_some', Option.some_inj, Prod.mk.injEq] at h
        obtain ⟨rfl, rfl⟩ := h
        obtain ⟨b, hb, hbr⟩ := ih (fun c hc => hinv c (List.mem_cons_of_mem a hc)) hr
        exact ⟨b, List.mem_cons_of_mem a hb, hbr⟩

/-- Under the full invariant, a successful `allocate_frame` hands out a frame
whose bit was clear beforehand and is set afterwards, and the frame is
4 KiB-aligned. -/
theorem allocate_frame_fresh :
    ∀ {l : List SingleRegionPageFrameAllocator} {f : Nat}
      {l' : List SingleRegionPageFrameAllocator},
      pfaInv l → allocate_frame l = some (f, l') →
      frameBitSet l f = false ∧ frameBitSet l' f = true ∧ f % PAGE_SIZE = 0 := by
  intro l
  induction l with
  | nil => intro f l' _ h; simp [allocate_frame] at h
  | cons a rest ih =>
    intro f l' hinv h
    have hp : PAGE_SIZE = 4096 := rfl
    obtain ⟨hsra, hpair⟩ := hinv
    rw [rangesOf, List.map_cons, List.pairwise_cons] at hpair
    obtain ⟨hhead, htail⟩ := hpair
    have hainv : sraInv a := hsra a (List.mem_cons_self a rest)
    unfold allocate_frame at h
    cases ha : sraAllocate a with
    | some p =>
      obtain ⟨g, a'⟩ := p
      rw [ha] at h
      simp only [Option.some_inj, Prod.mk.injEq] at h
      obtain ⟨rfl, rfl⟩ := h
      obtain ⟨i, hn, hf, ha'⟩ := sraAllocate_eq_some ha
      have hfz : firstZero a.bitmap = some i := by rw [← hainv.1, hn]
      have hi : i < a.bitmap.length := firstZero_some_lt hfz
      have hbit : a.bitmap[i]? = some false := firstZero_some_get hfz
      have hle := hainv.2.2
      have hbase := hainv.2.1
      rw [hp] at hf hbase
      have hrange : a.base ≤ g ∧ g < a.base + PAGE_SIZE * a.nFrames := by
        rw [hp]
        omega
      have hidx : (g - a.base) / PAGE_SIZE = i := by
        rw [hp]
        omega
      refine ⟨?_, ?_, by rw [hp]; omega⟩
      · rw [frameBitSet, if_pos hrange, hidx]
        unfold bitGet
        rw [hbit]
        rfl
      · rw [frameBitSet, if_pos (by rw [ha']; exact hrange), ha']
        simp only [hidx]
        unfold bitGet
        rw [List.getElem?_set_self hi]
        rfl
    | none =>
      rw [ha] at h
      cases hr : allocate_frame rest with
      | none => rw [hr] at h; simp at h
      | some q =>
        obtain ⟨g, rest'⟩ := q
        rw [hr] at h
        simp only [Option.map_some', Option.some_inj, Prod.mk.injEq] at h
        obtain ⟨rfl, rfl⟩ := h
        have hrestinv : pfaInv rest :=
          ⟨fun b hb => hsra b (List.mem_cons_of_mem a hb), htail⟩
        obtain ⟨hfalse, htrue, halign⟩ := ih hrestinv hr
        obtain ⟨b, hbmem, hbr⟩ :=
          allocate_frame_mem_range hrestinv.1 hr
        have hdisj : rangesDisjoint (a.base, a.nFrames) (b.base, b.nFrames) :=
          hhead _ (List.mem_map_of_mem _ hbmem)
        have hnotin : ¬ (a.base ≤ g ∧ g < a.base + PAGE_SIZE * a.nFrames) := by
          unfold rangesDisjoint at hdisj
          rw [hp] at hdisj hbr ⊢
          dsimp only at hdisj
          omega
        refine ⟨?_, ?_, halign⟩
        · rw [frameBitSet, if_neg hnotin]
          exact hfalse
        · rw [frameBitSet, if_neg hnotin]
          exact htrue

/-- Allocation never clears a set bit: any allocated frame stays allocated
across further allocations. -/
theorem frameBitSet_allocate_mono :
    ∀ {l : List SingleRegionPageFrameAllocator} {g : Nat}
      {l' : List SingleRegionPageFrameAllocator} (f : Nat),
      allocate_frame l = some (g, l') →
      frameBitSet l f = true → frameBitSet l' f = true := by
  intro l
  induction l with
  | nil => intro g l' f h; simp [allocate_frame] at h
  | cons a rest ih =>
    intro g l' f h hset
    unfold allocate_frame at h
    cases ha : sraAllocate a with
    | some p =>
      obtain ⟨g', a'⟩ := p
      rw [ha] at h
      simp only [Option.some_inj, Prod.mk.injEq] at h
      obtain ⟨rfl, rfl⟩ := h
      obtain ⟨i, _, _, ha'⟩ := sraAllocate_eq_some ha
      rw [frameBitSet] at hset ⊢
      rw [ha']
      by_cases hr : a.base ≤ f ∧ f < a.base + PAGE_SIZE * a.nFrames
      · rw [if_pos hr] at hset
        rw [if_pos hr]
        exact bitGet_set_true hset
      · rw [if_neg hr] at hset
        rw [if_neg hr]
        exact hset
    | none =>
      rw [ha] at h
      cases hr : allocate_frame rest with
      | none => rw [hr] at h; simp at h
      | some q =>
        obtain ⟨g', rest'⟩ := q
        rw [hr] at h
        simp only [Option.map_some', Option.some_inj, Prod.mk.injEq] at h
        obtain ⟨rfl, rfl⟩ := h
        rw [frameBitSet] at hset ⊢
        by_cases hin : a.base ≤ f ∧ f < a.base + PAGE_SIZE * a.nFrames
        · rw [if_pos hin] at hset
          rw [if_pos hin]
          exact hset
        · rw [if_neg hin] at hset
          rw [if_neg hin]
          exact ih f hr hset

theorem allocate_frame_sraInv :
    ∀ {l : List SingleRegionPageFrameAllocator} {f : Nat}
      {l' : List SingleRegionPageFrameAllocator},
      (∀ a ∈ l, sraInv a) → allocate_frame l = some (f, l') →
      ∀ b ∈ l', sraInv b := by
  intro l
  induction l with
  | nil => intro f l' _ h; simp [allocate_frame] at h
  | cons a rest ih =>
    intro f l' hinv h
    unfold allocate_frame at h
    cases ha : sraAllocate a with
    | some p =>
      obtain ⟨g, a'⟩ := p
      rw [ha] at h
      simp only [Option.some_inj, Prod.mk.injEq] at h
      obtain ⟨rfl, rfl⟩ := h
      intro b hb
      rcases List.mem_cons.mp hb with rfl | hmem
      · exact (sraAllocate_inv (hinv a (List.mem_cons_self a rest)) ha).1
      · exact hinv b (List.mem_cons_of_mem a hmem)
    | none =>
      rw [ha] at h
      cases hr : allocate_frame rest with
      | none => rw [hr] at h; simp at h
      | some q =>
        obtain ⟨g, rest'⟩ := q
        rw [hr] at h
        simp only [Option.map_some', Option.some_inj, Prod.mk.injEq] at h
        obtain ⟨rfl, rfl⟩ := h
        intro b hb
        rcases List.mem_cons.mp hb with rfl | hmem
        · exact hinv b (List.mem_cons_self b rest)
        · exact ih (fun c hc => hinv c (List.mem_cons_of_mem a hc)) hr b hmem

theorem allocate_frame_pfaInv {l : List SingleRegionPageFrameAllocator} {f : Nat}
    {l' : List SingleRegionPageFrameAllocator}
    (hinv : pfaInv l) (h : allocate_frame l = some (f, l')) : pfaInv l' := by
  refine ⟨allocate_frame_sraInv hinv.1 h, ?_⟩
  rw [allocate_frame_ranges h]
  exact hinv.2

theorem deallocate_frame_ranges :
    ∀ {l : List SingleRegionPageFrameAllocator} {g : Nat}
      {l' : List SingleRegionPageFrameAllocator},
      deallocate_frame l g = .ok l' → rangesOf l' = rangesOf l := by
  intro l
  induction l with
  | nil => intro g l' h; simp [deallocate_frame] at h
  | cons a rest ih =>
    intro g l' h
    unfold deallocate_frame at h
    cases hd : sraDeallocate a g with
    | freed a' =>
      rw [hd] at h
      simp only [DeallocateFrameResult.ok.injEq] at h
      subst h
      obtain ⟨_, _, ha'⟩ := sraDeallocate_freed hd
      simp [rangesOf, ha']
    | panicked msg => rw [hd] at h; simp at h
    | notOwner =>
      rw [hd] at h
      cases hr : deallocate_frame rest g with
      | ok rest' =>
        rw [hr] at h
        simp only [DeallocateFrameResult.ok.injEq] at h
        subst h
        simp only [rangesOf, List.map_cons, List.cons.injEq]
        exact ⟨by trivial, ih hr⟩
      | panicked msg => rw [hr] at h; simp at h

theorem deallocate_frame_sraInv :
    ∀ {l : List SingleRegionPageFrameAllocator} {g : Nat}
      {l' : List SingleRegionPageFrameAllocator},
      (∀ a ∈ l, sraInv a) → deallocate_frame l g = .ok l' →
      ∀ b ∈ l', sraInv b := by
  intro l
  induction l with
  | nil => intro g l' _ h; simp [deallocate_frame] at h
  | cons a rest ih =>
    intro g l' hinv h
    unfold deallocate_frame at h
    cases hd : sraDeallocate a g with
    | freed a' =>
      rw [hd] at h
      simp only [DeallocateFrameResult.ok.injEq] at h
      subst h
      intro b hb
      rcases List.mem_cons.mp hb with rfl | hmem
      · exact (sraDeallocate_inv (hinv a (List.mem_cons_self a rest)) hd).1
      · exact hinv b (List.mem_cons_of_mem a hmem)
    | panicked msg => rw [hd] at h; simp at h
    | notOwner =>
      rw [hd] at h
      cases hr : deallocate_frame rest g with
      | ok rest' =>
        rw [hr] at h
        simp only [DeallocateFrameResult.ok.injEq] at h
        subst h
        intro b hb
        rcases List.mem_cons.mp hb with rfl | hmem
        · exact hinv b (List.mem_cons_self b rest)
        · exact ih (fun c hc => hinv c (List.mem_cons_of_mem a hc)) hr b hmem
      | panicked msg => rw [hr] at h; simp at h

theorem deallocate_frame_pfaInv {l : List SingleRegionPageFrameAllocator}
    {g : Nat} {l' : List SingleRegionPageFrameAllocator}
    (hinv : pfaInv l) (h : deallocate_frame l g = .ok l') : pfaInv l' := by
  refine ⟨deallocate_frame_sraInv hinv.1 h, ?_⟩
  rw [deallocate_frame_ranges h]
  exact hinv.2

/-- Deallocating one aligned frame leaves every other aligned frame's bit
untouched. -/
theorem frameBitSet_deallocate_other :
    ∀ {l : List SingleRegionPageFrameAllocator} {g : Nat}
      {l' : List SingleRegionPageFrameAllocator} (f : Nat),
      (∀ a ∈ l, sraInv a) → deallocate_frame l g = .ok l' →
      f % PAGE_SIZE = 0 → g % PAGE_SIZE = 0 → f ≠ g →
      frameBitSet l f = true → frameBitSet l' f = true := by
  intro l
  induction l with
  | nil => intro g l' f _ h; simp [deallocate_frame] at h
  | cons a rest ih =>
    intro g l' f hinv h hfal hgal hne hset
    have hp : PAGE_SIZE = 4096 := rfl
    unfold deallocate_frame at h
    cases hd : sraDeallocate a g with
    | freed a' =>
      rw [hd] at h
      simp only [DeallocateFrameResult.ok.injEq] at h
      subst h
      obtain ⟨hgin, hgbit, ha'⟩ := sraDeallocate_freed hd
      have hbase := (hinv a (List.mem_cons_self a rest)).2.1
      rw [frameBitSet] at hset ⊢
      rw [ha']
      by_cases hfin : a.base ≤ f ∧ f < a.base + PAGE_SIZE * a.nFrames
      · rw [if_pos hfin] at hset
        rw [if_pos hfin]
        have hidxne : (g - a.base) / PAGE_SIZE ≠ (f - a.base) / PAGE_SIZE := by
          rw [hp] at hfal hgal hbase
          have hf1 := hfin.1
          have hg1 := hgin.1
          rw [hp]
          omega
        rw [bitGet_set_false_ne hidxne]
        exact hset
      · rw [if_neg hfin] at hset
        rw [if_neg hfin]
        exact hset
    | panicked msg => rw [hd] at h; simp at h
    | notOwner =>
      rw [hd] at h
      cases hr : deallocate_frame rest g with
      | ok rest' =>
        rw [hr] at h
        simp only [DeallocateFrameResult.ok.injEq] at h
        subst h
        rw [frameBitSet] at hset ⊢
        by_cases hfin : a.base ≤ f ∧ f < a.base + PAGE_SIZE * a.nFrames
        · rw [if_pos hfin] at hset
          rw [if_pos hfin]
          exact hset
        · rw [if_neg hfin] at hset
          rw [if_neg hfin]
          exact ih f (fun c hc => hinv c (List.mem_cons_of_mem a hc)) hr
            hfal hgal hne hset
      | panicked msg => rw [hr] at h; simp at h

/-- An operation against the global physical allocator. -/
inductive AllocOp
  | alloc
  | dealloc (frame : Nat)
  deriving Repr, DecidableEq

/-- One operation: `alloc` runs `allocate_frame` (OOM returns `None` without
modifying anything); `dealloc` runs `deallocate_frame`, whose panic aborts
the run (`none`). -/
def stepOp (l : List SingleRegionPageFrameAllocator) :
    AllocOp → Option (List SingleRegionPageFrameAllocator × Option Nat)
  | .alloc =>
    match allocate_frame l with
    | some (f, l') => some (l', some f)
    | none => some (l, none)
  | .dealloc f =>
    match deallocate_frame l f with
    | .ok l' => some (l', none)
    | .panicked _ => none

/-- Run a list of operations, collecting each step's returned frame. -/
def runOps (l : List SingleRegionPageFrameAllocator) :
    List AllocOp → Option (List SingleRegionPageFrameAllocator × List (Option Nat))
  | [] => some (l, [])
  | op :: ops =>
    match stepOp l op with
    | none => none
    | some (l', r) => (runOps l' ops).map fun p => (p.1, r :: p.2)

/-- `dealloc` operands are frame addresses, i.e. 4 KiB aligned — the
`PhysFrame` argument type enforces this in the Rust signature. -/
def opAligned (op : AllocOp) : Bool :=
  match op with
  | .alloc => true
  | .dealloc f => f % PAGE_SIZE == 0

def AlignedOps (ops : List AllocOp) : Prop := ∀ op ∈ ops, opAligned op = true

theorem stepOp_pfaInv {l : List SingleRegionPageFrameAllocator} {op : AllocOp}
    {p : List SingleRegionPageFrameAllocator × Option Nat}
    (hinv : pfaInv l) (h : stepOp l op = some p) : pfaInv p.1 := by
  cases op with
  | alloc =>
    unfold stepOp at h
    dsimp only at h
    cases ha : allocate_frame l with
    | some q =>
      obtain ⟨f, l'⟩ := q
      rw [ha] at h
      simp only [Option.some_inj] at h
      subst h
      exact allocate_frame_pfaInv hinv ha
    | none =>
      rw [ha] at h
      simp only [Option.some_inj] at h
      subst h
      exact hinv
  | dealloc f =>
    unfold stepOp at h
    dsimp only at h
    cases hd : deallocate_frame l f with
    | ok l' =>
      rw [hd] at h
      simp only [Option.some_inj] at h
      subst h
      exact deallocate_frame_pfaInv hinv hd
    | panicked msg => rw [hd] at h; simp at h

/-- If a frame's bit is set, a later step can only return that frame after a
`dealloc` of it: auxiliary induction for the no-reuse theorem. -/
theorem runOps_no_realloc :
    ∀ {ops : List AllocOp} {l : List SingleRegionPageFrameAllocator} {f : Nat}
      {lN : List SingleRegionPageFrameAllocator} {rs : List (Option Nat)},
      pfaInv l → AlignedOps ops → f % PAGE_SIZE = 0 → frameBitSet l f = true →
      runOps l ops = some (lN, rs) →
      ∀ j, rs[j]? = some (some f) →
        ∃ k : Nat, k < j ∧ ops[k]? = some (AllocOp.dealloc f) := by
  intro ops
  induction ops with
  | nil =>
    intro l f lN rs _ _ _ _ h j hj
    unfold runOps at h
    simp only [Option.some_inj, Prod.mk.injEq] at h
    obtain ⟨_, rfl⟩ := h
    simp at hj
  | cons op ops ih =>
    intro l f lN rs hinv hal hfal hbit h j hj
    unfold runOps at h
    cases hs : stepOp l op with
    | none => rw [hs] at h; simp at h
    | some p =>
      obtain ⟨l', r⟩ := p
      rw [hs] at h
      dsimp only at h
      cases hrun : runOps l' ops with
      | none => rw [hrun] at h; simp at h
      | some q =>
        obtain ⟨lN', rs'⟩ := q
        rw [hrun] at h
        simp only [Option.map_some', Option.some_inj, Prod.mk.injEq] at h
        obtain ⟨rfl, rfl⟩ := h
        have hinv' : pfaInv l' := stepOp_pfaInv hinv hs
        have hal' : AlignedOps ops := fun o ho => hal o (List.mem_cons_of_mem op ho)
        cases op with
        | alloc =>
          unfold stepOp at hs
          dsimp only at hs
          cases ha : allocate_frame l with
          | some q2 =>
            obtain ⟨g, l2⟩ := q2
            rw [ha] at hs
            simp only [Option.some_inj, Prod.mk.injEq] at hs
            obtain ⟨rfl, rfl⟩ := hs
            have hbit' : frameBitSet l2 f = true := frameBitSet_allocate_mono f ha hbit
            cases j with
            | zero =>
              simp only [List.getElem?_cons_zero, Option.some_inj] at hj
              obtain ⟨hfresh, _, _⟩ := allocate_frame_fresh hinv ha
              rw [hj] at hfresh
              rw [hbit] at hfresh
              simp at hfresh
            | succ j' =>
              simp only [List.getElem?_cons_succ] at hj
              obtain ⟨k, hk, hop⟩ := ih hinv' hal' hfal hbit' hrun j' hj
              exact ⟨k + 1, by omega, by simpa using hop⟩
          | none =>
            rw [ha] at hs
            simp only [Option.some_inj, Prod.mk.injEq] at hs
            obtain ⟨rfl, rfl⟩ := hs
            cases j with
            | zero => simp at hj
            | succ j' =>
              simp only [List.getElem?_cons_succ] at hj
              obtain ⟨k, hk, hop⟩ := ih hinv' hal' hfal hbit hrun j' hj
              exact ⟨k + 1, by omega, by simpa using hop⟩
        | dealloc g =>
          unfold stepOp at hs
          dsimp only at hs
          cases hd : deallocate_frame l g with
          | ok l2 =>
            rw [hd] at hs
            simp only [Option.some_inj, Prod.mk.injEq] at hs
            obtain ⟨rfl, rfl⟩ := hs
            cases j with
            | zero => simp at hj
            | succ j' =>
              simp only [List.getElem?_cons_succ] at hj
              by_cases hgf : g = f
              · exact ⟨0, by omega, by simp [hgf]⟩
              · have hgal : g % PAGE_SIZE = 0 := by
                  have := hal (AllocOp.dealloc g) (List.mem_cons_self _ _)
                  simpa [opAligned] using this
                have hbit' : frameBitSet l2 f = true :=
                  frameBitSet_deallocate_other f hinv.1 hd hfal hgal
                    (fun he => hgf he.symm) hbit
                obtain ⟨k, hk, hop⟩ := ih hinv' hal' hfal hbit' hrun j' hj
                exact ⟨k + 1, by omega, by simpa using hop⟩
          | panicked msg => rw [hd] at hs; simp at hs

/-- **C8.** (i) A freshly built single-region allocator satisfies the hint
invariant (hint = first zero bit); (ii) under the invariant, every successful
`allocate_frame` returns exactly the frame at the lowest free (zero) bit of
the first single-region allocator, in region order, that has any free bit;
(iii) every allocator step preserves the invariant; and (iv) consequently no
frame address is returned twice by `allocate_frame` without an intervening
deallocation of that frame. -/
theorem allocate_frame_order_and_no_reuse :
    (∀ r : MemoryRegion, sraInv (sraNew r)) ∧
    (∀ l : List SingleRegionPageFrameAllocator, pfaInv l →
      (allocate_frame l).map Prod.fst = specAllocateFrame l) ∧
    (∀ (l : List SingleRegionPageFrameAllocator) (op : AllocOp)
      (p : List SingleRegionPageFrameAllocator × Option Nat),
      pfaInv l → stepOp l op = some p → pfaInv p.1) ∧
    (∀ (l : List SingleRegionPageFrameAllocator) (ops : List AllocOp)
      (lN : List SingleRegionPageFrameAllocator) (rs : List (Option Nat))
      (i j f : Nat),
      pfaInv l → AlignedOps ops → runOps l ops = some (lN, rs) → i < j →
      rs[i]? = some (some f) → rs[j]? = some (some f) →
      ∃ k, i < k ∧ k < j ∧ ops[k]? = some (AllocOp.dealloc f)) := by
  refine ⟨sraNew_inv, fun l h => allocate_frame_spec h.1, fun l op p h hs =>
    stepOp_pfaInv h hs, ?_⟩
  intro l ops
  induction ops generalizing l with
  | nil =>
    intro lN rs i j f _ _ h _ hi _
    unfold runOps at h
    simp only [Option.some_inj, Prod.mk.injEq] at h
    obtain ⟨_, rfl⟩ := h
    simp at hi
  | cons op ops ih =>
    intro lN rs i j f hinv hal h hij hi hj
    unfold runOps at h
    cases hs : stepOp l op with
    | none => rw [hs] at h; simp at h
    | some p =>
      obtain ⟨l', r⟩ := p
      rw [hs] at h
      dsimp only at h
      cases hrun : runOps l' ops with
      | none => rw [hrun] at h; simp at h
      | some q =>
        obtain ⟨lN', rs'⟩ := q
        rw [hrun] at h
        simp only [Option.map_some', Option.some_inj, Prod.mk.injEq] at h
        obtain ⟨rfl, rfl⟩ := h
        have hinv' : pfaInv l' := stepOp_pfaInv hinv hs
        have hal' : AlignedOps ops := fun o ho => hal o (List.mem_cons_of_mem op ho)
        cases i with
        | succ i' =>
          cases j with
          | zero => omega
          | succ j' =>
            simp only [List.getElem?_cons_succ] at hi hj
            obtain ⟨k, hk1, hk2, hop⟩ :=
              ih l' lN' rs' i' j' f hinv' hal' hrun (by omega : i' < j') hi hj
            exact ⟨k + 1, by omega, by omega, by simpa using hop⟩
        | zero =>
          simp only [List.getElem?_cons_zero, Option.some_inj] at hi
          cases j with
          | zero => omega
          | succ j' =>
            simp only [List.getElem?_cons_succ] at hj
            cases op with
            | dealloc g =>
              unfold stepOp at hs
              dsimp only at hs
              cases hd : deallocate_frame l g with
              | ok l2 =>
                rw [hd] at hs
                simp only [Option.some_inj, Prod.mk.injEq] at hs
                obtain ⟨rfl, rfl⟩ := hs
                simp at hi
              | panicked msg => rw [hd] at hs; simp at hs
            | alloc =>
              unfold stepOp at hs
              dsimp only at hs
              cases ha : allocate_frame l with
              | none =>
                rw [ha] at hs
                simp only [Option.some_inj, Prod.mk.injEq] at hs
                obtain ⟨rfl, rfl⟩ := hs
                simp at hi
              | some q2 =>
                obtain ⟨g, l2⟩ := q2
                rw [ha] at hs
                simp only [Option.some_inj, Prod.mk.injEq] at hs
                obtain ⟨rfl, rfl⟩ := hs
                have hgf : g = f := by simpa using hi
                subst hgf
                obtain ⟨_, hset, halign⟩ := allocate_frame_fresh hinv ha
                obtain ⟨k, hk, hop⟩ :=
                  runOps_no_realloc hinv' hal' halign hset hrun j' hj
                exact ⟨k + 1, by omega, by omega, by simpa using hop⟩

/-- Witness for `allocate_frame_order_and_no_reuse`: on a one-region
allocator with 8 free frames, the trace alloc → dealloc 0 → alloc returns
frame 0 twice, and the theorem locates the intervening dealloc at position 1. -/
theorem allocate_frame_order_and_no_reuse_witness :
    ∃ k, 0 < k ∧ k < 2 ∧
      ([AllocOp.alloc, AllocOp.dealloc 0, AllocOp.alloc][k]? =
        some (AllocOp.dealloc 0)) :=
  allocate_frame_order_and_no_reuse.2.2.2
    [{ base := 0, nFrames := 8, bitmap := List.replicate 8 false,
       next_free := some 0 }]
    [AllocOp.alloc, AllocOp.dealloc 0, AllocOp.alloc]
    [{ base := 0, nFrames := 8,
       bitmap := [true, false, false, false, false, false, false, false],
       next_free := some 1 }]
    [some 0, none, some 0] 0 2 0
    (by constructor
        · intro a ha
          rw [List.mem_singleton] at ha
          subst ha
          exact ⟨by decide, by decide, by decide⟩
        · simp [rangesOf])
    (by intro op hop
        fin_cases hop <;> decide)
    (by decide) (by decide) (by decide) (by decide)

/-! ## Initramfs (`src/kernel/src/initramfs.rs`)

The blob is an immutable byte slice, embedded as `List Nat` (each element a
byte).  All slice indexing that panics in Rust is modelled as `none`. -/

/-- Little-endian byte list to a number (`usize::from_le_bytes`). -/
def leBytesToNat : List Nat → Nat
  | [] => 0
  | b :: rest => b % 256 + 256 * leBytesToNat rest

/-- `&blob[a..b]`: `none` models the Rust slice-range panic. -/
def sliceRange (blob : List Nat) (a b : Nat) : Option (List Nat) :=
  if a ≤ b ∧ b ≤ blob.length then some ((blob.drop a).take (b - a)) else none

/-- Read a little-endian `u64` at byte offset `off`. -/
def readU64 (blob : List Nat) (off : Nat) : Option Nat :=
  (sliceRange blob off (off + 8)).map leBytesToNat

def utf8Cont (b : Nat) : Bool := 0x80 ≤ b && b ≤ 0xBF

/-- `str::from_utf8` validity (RFC 3629: no overlongs, no surrogates, max
U+10FFFF), used because the iterator `.expect`s on invalid names. -/
def isValidUtf8 : List Nat → Bool
  | [] => true
  | b :: rest =>
    if b ≤ 0x7F then isValidUtf8 rest
    else if 0xC2 ≤ b && b ≤ 0xDF then
      match rest with
      | c1 :: rest2 => utf8Cont c1 && isValidUtf8 rest2
      | [] => false
    else if b == 0xE0 then
      match rest with
      | c1 :: c2 :: rest2 =>
        (0xA0 ≤ c1 && c1 ≤ 0xBF) && utf8Cont c2 && isValidUtf8 rest2
      | _ => false
    else if (0xE1 ≤ b && b ≤ 0xEC) || b == 0xEE || b == 0xEF then
      match rest with
      | c1 :: c2 :: rest2 => utf8Cont c1 && utf8Cont c2 && isValidUtf8 rest2
      | _ => false
    else if b == 0xED then
      match rest with
      | c1 :: c2 :: rest2 =>
        (0x80 ≤ c1 && c1 ≤ 0x9F) && utf8Cont c2 && isValidUtf8 rest2
      | _ => false
    else if b == 0xF0 then
      match rest with
      | c1 :: c2 :: c3 :: rest2 =>
        (0x90 ≤ c1 && c1 ≤ 0xBF) && utf8Cont c2 && utf8Cont c3 && isValidUtf8 rest2
      | _ => false
    else if 0xF1 ≤ b && b ≤ 0xF3 then
      match rest with
      | c1 :: c2 :: c3 :: rest2 =>
        utf8Cont c1 && utf8Cont c2 && utf8Cont c3 && isValidUtf8 rest2
      | _ => false
    else if b == 0xF4 then
      match rest with
      | c1 :: c2 :: c3 :: rest2 =>
        (0x80 ≤ c1 && c1 ≤ 0x8F) && utf8Cont c2 && utf8Cont c3 && isValidUtf8 rest2
      | _ => false
    else false

/-- One step of `InitRamFileIterator::next` for entry `i`
(`initramfs.rs` lines 47–67): bound-check the 24-byte table row inside
`raw[8..]`, read `(name_offset, name_len, data_len)`, slice the name at
`name_offset` and the data right after it, and require the name to be valid
UTF-8 (the `.expect` panic is `none`). -/
def entryAt (blob : List Nat) (i : Nat) : Option (List Nat × List Nat) :=
  if 8 ≤ blob.length ∧ 8 + 24 * (i + 1) ≤ blob.length then
    match readU64 blob (8 + 24 * i), readU64 blob (8 + 24 * i + 8),
        readU64 blob (8 + 24 * i + 16) with
    | some name_offset, some name_len, some file_len =>
      match sliceRange blob name_offset (name_offset + name_len),
          sliceRange blob (name_offset + name_len)
            (name_offset + name_len + file_len) with
      | some name, some data =>
        if isValidUtf8 name then some (name, data) else none
      | _, _ => none
    | _, _, _ => none
  else none

/-- Entries `i, i+1, …` while `remaining` entries are left: the iterator's
full yield sequence. -/
def iterAux (blob : List Nat) : Nat → Nat → Option (List (List Nat × List Nat))
  | 0, _ => some []
  | remaining + 1, i =>
    (entryAt blob i).bind fun e =>
      (iterAux blob remaining (i + 1)).map fun es => e :: es

/-- `InitRamFs::iter` driven to completion: read the `u64` entry count at
offset 0 and yield all entries. -/
def iterFs (blob : List Nat) : Option (List (List Nat × List Nat)) :=
  (readU64 blob 0).bind fun file_count => iterAux blob file_count 0

/-- The linear scan of `InitRamFs::open_file`: `none` models a panic inside
the iterator, `some none` is a completed scan without a match, `some (some
bytes)` a hit.  The scan stops at the FIRST matching name (`find_map`). -/
def openFileAux (blob : List Nat) (name : List Nat) :
    Nat → Nat → Option (Option (List Nat))
  | 0, _ => some none
  | remaining + 1, i =>
    (entryAt blob i).bind fun e =>
      if e.1 = name then some (some e.2)
      else openFileAux blob name remaining (i + 1)

/-- `InitRamFs::open_file(name)`. -/
def open_file (blob : List Nat) (name : List Nat) : Option (Option (List Nat)) :=
  (readU64 blob 0).bind fun file_count => openFileAux blob name file_count 0

/-- The scan returns the bytes of the first yielded entry whose name
matches. -/
theorem openFileAux_find :
    ∀ {remaining : Nat} {blob : List Nat} {i : Nat}
      {es : List (List Nat × List Nat)} (name : List Nat),
      iterAux blob remaining i = some es →
      openFileAux blob name remaining i =
        some ((es.find? fun e => e.1 == name).map Prod.snd) := by
  intro remaining
  induction remaining with
  | zero =>
    intro blob i es name h
    simp only [iterAux, Option.some_inj] at h
    subst h
    rfl
  | succ rem ih =>
    intro blob i es name h
    unfold iterAux at h
    cases he : entryAt blob i with
    | none => rw [he] at h; simp at h
    | some e =>
      rw [he] at h
      simp only [Option.some_bind] at h
      cases hr : iterAux blob rem (i + 1) with
      | none => rw [hr] at h; simp at h
      | some es' =>
        rw [hr] at h
        simp only [Option.map_some', Option.some_inj] at h
        subst h
        unfold openFileAux
        rw [he]
        simp only [Option.some_bind]
        by_cases hn : e.1 = name
        · rw [if_pos hn, List.find?_cons_of_pos _ (by simpa using hn)]
          rfl
        · rw [if_neg hn, List.find?_cons_of_neg _ (by simpa using hn)]
          exact ih name hr

/-- **C7 (counterexample).** A well-formed blob with two entries that share
the name "a" (byte 97) but hold different bytes: the pair `([97], [1])` is
yielded by `iter()`, yet `open_file "a"` returns the FIRST entry's bytes
`[0]`, not `[1]` — the claimed round-trip fails for duplicated names. -/
def dupBlob : List Nat :=
  [2, 0, 0, 0, 0, 0, 0, 0,
   56, 0, 0, 0, 0, 0, 0, 0, 1, 0, 0, 0, 0, 0, 0, 0, 1, 0, 0, 0, 0, 0, 0, 0,
   58, 0, 0, 0, 0, 0, 0, 0, 1, 0, 0, 0, 0, 0, 0, 0, 1, 0, 0, 0, 0, 0, 0, 0,
   97, 0, 97, 1]

theorem open_file_duplicate_name_counterexample :
    iterFs dupBlob = some [([97], [0]), ([97], [1])] ∧
    ([97], [1]) ∈ [([97], [0]), ([97], [1])] ∧
    open_file dupBlob [97] = some (some [0]) ∧
    some (some [0]) ≠ some (some ([1] : List Nat)) := by
  refine ⟨by decide, by decide, by decide, by decide⟩

/-- **C7 (amended).** For every well-formed initramfs blob, `open_file(name)`
returns the bytes of the FIRST entry yielded by `iter()` with that name: the
iterator/open_file round-trip holds exactly for every `(name, bytes)` entry
that is the first yielded entry carrying its name, and can fail for a later
duplicate of an earlier name. -/
theorem open_file_first_entry (blob : List Nat)
    (entries : List (List Nat × List Nat)) (name bytes : List Nat) (i : Nat)
    (hiter : iterFs blob = some entries)
    (hi : entries[i]? = some (name, bytes))
    (hfirst : ∀ j e, j < i → entries[j]? = some e → e.1 ≠ name) :
    open_file blob name = some (some bytes) := by
  unfold iterFs at hiter
  cases hc : readU64 blob 0 with
  | none => rw [hc] at hiter; simp at hiter
  | some count =>
    rw [hc] at hiter
    simp only [Option.some_bind] at hiter
    unfold open_file
    rw [hc]
    simp only [Option.some_bind]
    rw [openFileAux_find name hiter]
    have hfind : entries.find? (fun e => e.1 == name) = some (name, bytes) := by
      clear hiter hc
      induction entries generalizing i with
      | nil => simp at hi
      | cons e es ihe =>
        cases i with
        | zero =>
          simp only [List.getElem?_cons_zero, Option.some_inj] at hi
          subst hi
          rw [List.find?_cons_of_pos _ (by simp)]
        | succ i' =>
          simp only [List.getElem?_cons_succ] at hi
          have hne : e.1 ≠ name :=
            hfirst 0 e (Nat.succ_pos _) (by simp)
          rw [List.find?_cons_of_neg _ (by simpa using hne)]
          exact ihe i' hi
            (fun j e2 hj hj2 => hfirst (j + 1) e2 (by omega) (by simpa using hj2))
    rw [hfind]
    rfl

/-- Witness for `open_file_first_entry`: the first entry of `dupBlob`. -/
theorem open_file_first_entry_witness :
    open_file dupBlob [97] = some (some [0]) :=
  open_file_first_entry dupBlob [([97], [0]), ([97], [1])] [97] [0] 0
    (by decide) (by decide) (fun j e hj hj2 => absurd hj (by omega))

/-! ## Global allocator slab path (`src/kernel/src/mem/virt.rs`)

Every slab-path allocation ultimately returns from `SlabElement::alloc`
(every return path of `Slab::allocate` is `el.alloc(self.size)`), so the
address arithmetic of the returned pointer lives entirely in
`SlabElement::alloc`, and the class-selection arithmetic in `GAlloc::alloc`. -/

/-- `core::alloc::Layout`: a size and a power-of-two alignment. -/
structure Layout where
  size : Nat
  align : Nat
  deriving Repr, DecidableEq

/-- The slab size classes built by `KAlloc::new` (virt.rs lines 317–326), in
array order. -/
def SLAB_SIZES : List Nat := [32, 64, 128, 256, 512, 1024, 2048, 4096]

/-- The class-selection arithmetic of `GAlloc::alloc` (virt.rs lines
382–384): `pow2 = layout.size().next_power_of_two()`; when `pow2 ≤ 4096` the
slab at index `pow2.ilog2().saturating_sub(32usize.ilog2())` serves the
request (its size is returned); `none` is the big-heap path.  Note the
routing never reads `layout.align()`. -/
def gallocSlabClass (layout : Layout) : Option Nat :=
  let pow2 := layout.size.nextPowerOfTwo
  if pow2 ≤ 4096 then SLAB_SIZES[pow2.log2 - 5]? else none

/-- A slab element: the virtual address of its 4 KiB data frame
(`OFFSET + phys`, hence 4 KiB-aligned) and its 128-bit allocation bitmap. -/
structure SlabElement where
  dataBase : Nat
  bitmap : List Bool
  deriving Repr, DecidableEq

/-- `SlabElement::alloc` (virt.rs lines 274–282): take the first zero bit of
the first `4096 / size` bitmap bits, set it, and return the pointer
`data + index * size`.  `none` models the "SlabElement was empty" panic. -/
def slabElementAlloc (e : SlabElement) (size : Nat) :
    Option (Nat × SlabElement) :=
  match firstZero (e.bitmap.take (4096 / size)) with
  | some index =>
    some (e.dataBase + index * size, { e with bitmap := e.bitmap.set index true })
  | none => none

/-- A slab element whose first sub-slot is already taken. -/
def slabC10 : SlabElement :=
  { dataBase := 4096, bitmap := true :: List.replicate 127 false }

/-- **C10 (counterexample).** For `Layout { size := 32, align := 64 }` the
slab path picks the 32-byte class (the align field is never consulted), and
allocating from a 4 KiB-aligned slab element whose slot 0 is taken returns
pointer `4096 + 1 × 32 = 4128`, which is NOT 64-byte aligned: the returned
pointer misses the layout's requested alignment. -/
theorem gallocSlabClass_32_64 :
    gallocSlabClass { size := 32, align := 64 } = some 32 := by
  have h1 : Nat.nextPowerOfTwo 32 = 32 := by
    simp [Nat.nextPowerOfTwo, Nat.nextPowerOfTwo.go]
  have h2 : Nat.log2 32 = 5 := by
    simp [Nat.log2]
  unfold gallocSlabClass
  rw [h1]
  rw [if_pos (by norm_num)]
  rw [h2]
  rfl

theorem galloc_slab_ignores_align :
    gallocSlabClass { size := 32, align := 64 } = some 32 ∧
    slabC10.dataBase % PAGE_SIZE = 0 ∧
    (slabElementAlloc slabC10 32).map Prod.fst = some 4128 ∧
    ¬ (4128 % 64 = 0) := by
  refine ⟨gallocSlabClass_32_64, by decide, by decide, by decide⟩

/-- **C10 (amended).** For every layout routed to the slab path, the chosen
class is `max(32, next_pow2(size))`, and every pointer `SlabElement::alloc`
returns from a 4 KiB-aligned data frame is aligned to that class — so the
layout's requested alignment is honored exactly when
`layout.align() ≤ max(32, next_pow2(size))`, not beyond it. -/
theorem galloc_slab_class_alignment (layout : Layout) (e : SlabElement)
    (c ptr : Nat) (e' : SlabElement)
    (hclass : gallocSlabClass layout = some c)
    (hbase : e.dataBase % PAGE_SIZE = 0)
    (halloc : slabElementAlloc e c = some (ptr, e')) :
    c = max 32 layout.size.nextPowerOfTwo ∧ ptr % c = 0 := by
  unfold gallocSlabClass at hclass
  by_cases hp : layout.size.nextPowerOfTwo ≤ 4096
  swap
  · rw [if_neg hp] at hclass
    simp at hclass
  rw [if_pos hp] at hclass
  obtain ⟨k, hk⟩ := Nat.isPowerOfTwo_nextPowerOfTwo layout.size
  have hk12 : k ≤ 12 := by
    by_contra hgt
    push_neg at hgt
    have h13 : (2 : Nat) ^ 13 ≤ 2 ^ k := Nat.pow_le_pow_right (by norm_num) (by omega)
    rw [hk] at hp
    norm_num at h13
    omega
  rw [hk] at hclass
  rw [Nat.log2_eq_log_two, Nat.log_pow (by norm_num)] at hclass
  have hmain : c = max 32 (2 ^ k) ∧ c ∣ 4096 := by
    interval_cases k <;>
      (simp only [SLAB_SIZES] at hclass) <;>
      (norm_num at hclass) <;> subst hclass <;> exact ⟨by norm_num, by norm_num⟩
  obtain ⟨hc, hdvd⟩ := hmain
  refine ⟨by rw [hk, hc], ?_⟩
  unfold slabElementAlloc at halloc
  cases hfz : firstZero (e.bitmap.take (4096 / c)) with
  | none => rw [hfz] at halloc; simp at halloc
  | some index =>
    rw [hfz] at halloc
    simp only [Option.some_inj, Prod.mk.injEq] at halloc
    obtain ⟨rfl, _⟩ := halloc
    have hcd : c ∣ e.dataBase := by
      refine dvd_trans hdvd ?_
      exact Nat.dvd_of_mod_eq_zero hbase
    rw [Nat.add_mul_mod_self_right]
    exact Nat.mod_eq_zero_of_dvd hcd

/-- Witness for `galloc_slab_class_alignment`: a fresh 32-byte slab element. -/
theorem galloc_slab_class_alignment_witness :
    (32 : Nat) = max 32 (Nat.nextPowerOfTwo 32) ∧ 4096 % 32 = 0 :=
  galloc_slab_class_alignment { size := 32, align := 64 }
    { dataBase := 4096, bitmap := List.replicate 128 false } 32 4096
    { dataBase := 4096, bitmap := (List.replicate 128 false).set 0 true }
    gallocSlabClass_32_64 (by decide) (by decide)

end EvKrnl
